import Mathlib

set_option maxRecDepth 4000

/-!
Verification development for the retrieval-rerank-ground pipeline of the
Agentic_RAG repository. Text values of the Python program are embedded as
lists of characters. Machine integers of the program are embedded as Nat
or Int. The token estimator multiplies a word count by the float 1.3 and
truncates; on every word count the program can reach, that equals the
exact integer computation 13 * words / 10, which is the form used here.
-/

/-- Character-list model of a Python str value. -/
abbrev Str := List Char

def nl : Char := '\n'

def sqc : Char := '\''

/-- Word count of a text, mirroring len(text.split()): the number of
maximal runs of non-whitespace characters. -/
def wordCount (s : Str) : Nat :=
  (s.foldl
    (fun acc ch =>
      if ch.isWhitespace then (acc.1, false)
      else if acc.2 then (acc.1, true) else (acc.1 + 1, true))
    ((0 : Nat), false)).1

/-- Embeds chunking._estimate_tokens: max(1, int(words * 1.3)), where the
float computation int(words * 1.3) equals 13 * words / 10 in exact
integer arithmetic on the reachable range. -/
def estimateTokens (text : Str) : Nat := max 1 (13 * wordCount text / 10)

/-- Embeds chunking.ChunkingConfig. -/
structure ChunkingConfig where
  target_tokens : Nat := 500
  overlap_tokens : Nat := 75
  max_tokens : Nat := 800
deriving DecidableEq

/-- Embeds models.DocumentBlock. -/
structure DocumentBlock where
  page : Int
  kind : Str
  text : Str
deriving DecidableEq

/-- Embeds models.DocumentRevision. -/
structure DocumentRevision where
  doc_id : Str
  rev : Str
  title : Option Str
  effective_date : Option Str
  allowed_groups : List Str
  source_url : Str
  blocks : List DocumentBlock
  owner : Option Str := none
  tags : List Str := []
  hash : Option Str := none

/-- Embeds the two-key metadata dict attached to each chunk by
chunking.chunk_document. -/
structure ChunkMeta where
  chunk_index : Nat
  title : Option Str
deriving DecidableEq

/-- Embeds models.Chunk. -/
structure Chunk where
  chunk_id : Str
  doc_id : Str
  rev : Str
  text : Str
  page_start : Int
  page_end : Int
  section_path : Option Str
  token_count : Nat
  allowed_groups : List Str
  source_url : Str
  metadata : ChunkMeta
deriving DecidableEq

/-- Embeds the Python str.join operation: joinSep sep xs concatenates the
texts of xs with sep between consecutive entries. -/
def joinSep (sep : Str) : List Str → Str
  | [] => []
  | [x] => x
  | x :: y :: rest => x ++ sep ++ joinSep sep (y :: rest)

/-- Zero-padded four-digit ordinal, as in the chunk_id format string. -/
def pad4 (n : Nat) : Str :=
  let ds := Nat.toDigits 10 n
  List.replicate (4 - ds.length) '0' ++ ds

/-- Embeds the Python str.strip method on a text. -/
def stripWS (s : Str) : Str :=
  ((s.dropWhile Char.isWhitespace).reverse.dropWhile Char.isWhitespace).reverse

/-- Order-preserving deduplication keeping the first occurrence, as done
by dict.fromkeys in chunking._build_section_path. -/
def firstDedup : List Str → List Str → List Str
  | [], _ => []
  | x :: xs, seen => if x ∈ seen then firstDedup xs seen else x :: firstDedup xs (x :: seen)

/-- Embeds chunking._build_section_path. -/
def buildSectionPath (blocks : List DocumentBlock) : Option Str :=
  let headings := (blocks.filter (fun b => b.kind = ("heading").toList)).map (fun b => stripWS b.text)
  if headings = [] then none
  else some (joinSep ((" > ").toList) (firstDedup headings []))

/-- Accumulator of the chunk_document loop: emitted chunks, the pending
buffer, its running token estimate, and the next chunk ordinal. -/
structure ChunkAcc where
  chunks : List Chunk
  buffer : List DocumentBlock
  buffer_tokens : Nat
  chunk_index : Nat

/-- Loop of chunking._tail_within_tokens over the reversed block list.
The accumulated tail is kept in document order by consing. -/
def tailGo (maxT : Nat) : List DocumentBlock → List DocumentBlock → Nat → List DocumentBlock
  | [], tail, _ => tail
  | b :: rest, tail, total =>
    let tokens := estimateTokens b.text
    if total + tokens > maxT ∧ tail ≠ [] then tail
    else tailGo maxT rest (b :: tail) (total + tokens)

/-- Embeds chunking._tail_within_tokens. -/
def tailWithinTokens (blocks : List DocumentBlock) (maxT : Nat) : List DocumentBlock :=
  tailGo maxT blocks.reverse [] 0

/-- Embeds the nested flush function of chunking.chunk_document. -/
def flushBuffer (doc : DocumentRevision) (cfg : ChunkingConfig) (force : Bool) (acc : ChunkAcc) : ChunkAcc :=
  if acc.buffer = [] then acc
  else if ¬force ∧ acc.buffer_tokens < cfg.target_tokens then acc
  else
    let text := joinSep [nl] (acc.buffer.map DocumentBlock.text)
    let pages := acc.buffer.map DocumentBlock.page
    let chunk : Chunk :=
      { chunk_id := doc.doc_id ++ [':'] ++ doc.rev ++ [':'] ++ pad4 acc.chunk_index
        doc_id := doc.doc_id
        rev := doc.rev
        text := text
        page_start := pages.foldl min (pages.headD 0)
        page_end := pages.foldl max (pages.headD 0)
        section_path := buildSectionPath acc.buffer
        token_count := estimateTokens text
        allowed_groups := doc.allowed_groups
        source_url := doc.source_url
        metadata := ⟨acc.chunk_index, doc.title⟩ }
    let newBuffer := tailWithinTokens acc.buffer cfg.overlap_tokens
    { chunks := acc.chunks ++ [chunk]
      buffer := newBuffer
      buffer_tokens := (newBuffer.map (fun b => estimateTokens b.text)).sum
      chunk_index := acc.chunk_index + 1 }

/-- Per-block body of the chunk_document loop: append the block, soft
flush at target_tokens, force flush at max_tokens. -/
def chunkStep (doc : DocumentRevision) (cfg : ChunkingConfig) (acc : ChunkAcc) (block : DocumentBlock) : ChunkAcc :=
  let acc1 : ChunkAcc :=
    { acc with
      buffer := acc.buffer ++ [block]
      buffer_tokens := acc.buffer_tokens + estimateTokens block.text }
  let acc2 := if cfg.target_tokens ≤ acc1.buffer_tokens then flushBuffer doc cfg false acc1 else acc1
  if cfg.max_tokens ≤ acc2.buffer_tokens then flushBuffer doc cfg true acc2 else acc2

/-- Embeds chunking.chunk_document. -/
def chunk_document (doc : DocumentRevision) (cfg : ChunkingConfig) : List Chunk :=
  (flushBuffer doc cfg true (doc.blocks.foldl (chunkStep doc cfg) ⟨[], [], 0, 0⟩)).chunks

/-- Minimal JSON value model for the free-form metadata map carried by a
search result record. -/
inductive JVal where
  | str (s : Str)
  | num (q : ℚ)
  | flag (b : Bool)
  | null
  | arr (xs : List JVal)
  | obj (fs : List (Str × JVal))

/-- Embeds retrieval.SearchResult. -/
structure SearchResult where
  chunk_id : Str
  doc_id : Str
  rev : Str
  text : Str
  score : ℚ
  section_path : Option Str
  page_start : Option Int
  page_end : Option Int
  source_url : Str
  allowed_groups : List Str
  metadata : List (Str × JVal)
  highlights : Option Str := none

/-- Embeds grounding.GroundingChunk. -/
structure GroundingChunk where
  chunk_id : Str
  doc_id : Str
  rev : Str
  text : Str
  section_path : Option Str
  pages : Option Int × Option Int
  source_url : Str
  citation : Str
  score : ℚ
deriving DecidableEq

/-- Decimal rendering of an integer, as produced by a Python format
string. -/
def intStr (n : Int) : Str :=
  if n < 0 then '-' :: Nat.toDigits 10 n.natAbs else Nat.toDigits 10 n.natAbs

/-- Embeds grounding._format_citation. The revision suffix appears only
for a non-empty rev, the page suffix only for a truthy page_start, so
page 0 and a missing page are both suppressed. -/
def formatCitation (c : SearchResult) : Str :=
  let revPart := if c.rev ≠ [] then (" Rev ").toList ++ c.rev else []
  let page :=
    match c.page_start with
    | some n => if n ≠ 0 then (" p.").toList ++ intStr n else []
    | none => []
  c.doc_id ++ revPart ++ page

/-- Deduplication key tuple used by grounding.build_grounding_pack. -/
abbrev GKey := Str × Option Str × Option Int × Option Int

def groundKey (c : SearchResult) : GKey :=
  (c.doc_id, c.section_path, c.page_start, c.page_end)

/-- Key of an already-assembled grounding chunk, for stating properties
over the output pack. -/
def gkeyG (p : GroundingChunk) : GKey :=
  (p.doc_id, p.section_path, p.pages.1, p.pages.2)

/-- Conversion of a surviving candidate into the grounding chunk
appended by build_grounding_pack. -/
def toGroundingChunk (c : SearchResult) : GroundingChunk :=
  { chunk_id := c.chunk_id
    doc_id := c.doc_id
    rev := c.rev
    text := c.text
    section_path := c.section_path
    pages := (c.page_start, c.page_end)
    source_url := c.source_url
    citation := formatCitation c
    score := c.score }

/-- Loop state of build_grounding_pack: the seen key set, the per-doc
counters, the pack built so far, and whether the loop has exited. -/
structure GroundState where
  seen : List GKey
  counts : Str → Nat
  pack : List GroundingChunk
  stopped : Bool

/-- Diversification cap max(2, max_chunks // 3); Python floor division
on int is Int.fdiv. -/
def divCap (maxChunks : Int) : Int := max 2 (Int.fdiv maxChunks 3)

/-- One iteration of the build_grounding_pack loop over a candidate.
The key enters the seen set before the diversification test, counters
move only when diversify is on, and the loop stops once the pack has
reached max_chunks entries. -/
def groundStep (maxChunks : Int) (dv : Bool) (st : GroundState) (c : SearchResult) : GroundState :=
  if st.stopped then st
  else if groundKey c ∈ st.seen then st
  else if dv ∧ divCap maxChunks ≤ (st.counts c.doc_id : Int) then
    { st with seen := groundKey c :: st.seen }
  else
    { seen := groundKey c :: st.seen
      counts :=
        if dv then
          fun d => if d = c.doc_id then st.counts c.doc_id + 1 else st.counts d
        else st.counts
      pack := st.pack ++ [toGroundingChunk c]
      stopped := decide (maxChunks ≤ ((st.pack ++ [toGroundingChunk c]).length : Int)) }

def groundRun (maxChunks : Int) (dv : Bool) (st : GroundState) (cs : List SearchResult) : GroundState :=
  cs.foldl (groundStep maxChunks dv) st

def initGroundState : GroundState := ⟨[], fun _ => 0, [], false⟩

/-- Embeds grounding.build_grounding_pack. -/
def build_grounding_pack (candidates : List SearchResult) (maxChunks : Int) (dv : Bool) : List GroundingChunk :=
  (groundRun maxChunks dv initGroundState candidates).pack

/-- Test data builder: a candidate with the given chunk id, doc id and
page bounds. -/
def mkSR (cid did : Str) (ps : Option Int) : SearchResult :=
  { chunk_id := cid
    doc_id := did
    rev := []
    text := cid
    score := 1
    section_path := none
    page_start := ps
    page_end := ps
    source_url := []
    allowed_groups := []
    metadata := []
    highlights := none }

def cand1 : SearchResult := mkSR (("c1").toList) (("dA").toList) (some 1)

def cand2 : SearchResult := mkSR (("c2").toList) (("dA").toList) (some 2)

def cand3 : SearchResult := mkSR (("c3").toList) (("dA").toList) (some 3)

def cand4 : SearchResult := mkSR (("c4").toList) (("dA").toList) (some 3)

/-- First-match predicate used to state that the kept entry for a key is
the first candidate carrying that key. -/
def keyMatch (k : GKey) (d : SearchResult) : Bool := decide (groundKey d = k)

/-- Single oversized block: four words estimate to 5 tokens, above the
max_tokens of the small config below. -/
def bigBlock : DocumentBlock :=
  ⟨1, ("paragraph").toList, ("alpha beta gamma delta").toList⟩

def singleBlockDoc : DocumentRevision :=
  { doc_id := ("d1").toList
    rev := ("r1").toList
    title := none
    effective_date := none
    allowed_groups := []
    source_url := []
    blocks := [bigBlock] }

def smallCfg : ChunkingConfig := ⟨2, 1, 3⟩

/-- Two six-word blocks, each estimating to 7 tokens, below the
max_tokens of 10 in the config below. -/
def blockA : DocumentBlock :=
  ⟨1, ("paragraph").toList, ("a1 a2 a3 a4 a5 a6").toList⟩

def blockB : DocumentBlock :=
  ⟨2, ("paragraph").toList, ("b1 b2 b3 b4 b5 b6").toList⟩

def twoBlockDoc : DocumentRevision :=
  { doc_id := ("d2").toList
    rev := ("r1").toList
    title := none
    effective_date := none
    allowed_groups := []
    source_url := []
    blocks := [blockA, blockB] }

def c4Cfg : ChunkingConfig := ⟨5, 1, 10⟩

/-- Opening text of an ACL filter clause, up to and including the
opening quote of the group literal. -/
def clausePre : Str := ("allowed_groups/any(g: g eq ").toList ++ [sqc]

/-- Closing quote and parenthesis of an ACL filter clause. -/
def clauseClose : Str := [sqc, ')']

def orSep : Str := (" or ").toList

/-- One clause of the ACL filter, as interpolated by the format string in
retrieval.AzureSearchRetriever._filter_for_groups: the group identifier
is inserted verbatim, with no escaping. -/
def aclClause (group : Str) : Str := clausePre ++ group ++ clauseClose

/-- Embeds retrieval.AzureSearchRetriever._filter_for_groups. -/
def filter_for_groups (user_groups : List Str) : Option Str :=
  if user_groups = [] then none
  else some (joinSep orSep (user_groups.map aclClause))

/-- Modelled from the spec: consuming an expected token from the head of
an expression text, the basic step of the backend grammar for ACL
filters (the backend itself is outside the repository). Returns the
remainder when the token is present. -/
def dropPre : Str → Str → Option Str
  | [], s => some s
  | _ :: _, [] => none
  | p :: ps, c :: cs => if c = p then dropPre ps cs else none

/-- Modelled from the spec: the backend reads an ACL filter as an or-join
of clauses of the shape allowed_groups/any(g: g eq L) with a quoted
literal L that ends at the next quote character; parseClauses returns
the literal of each clause. The fuel argument bounds the recursion by
the clause count. -/
def parseClauses : Nat → Str → Option (List Str)
  | 0, _ => none
  | fuel + 1, s =>
    (dropPre clausePre s).bind (fun s1 =>
      let lit := s1.takeWhile (fun ch => ch ≠ sqc)
      (dropPre (lit ++ clauseClose) s1).bind (fun s2 =>
        if s2 = [] then some [lit]
        else
          (dropPre orSep s2).bind (fun s3 =>
            (parseClauses fuel s3).map (fun ls => lit :: ls))))

/-- Modelled from the spec: parse a full filter expression. -/
def parseFilter (s : Str) : Option (List Str) := parseClauses (s.length + 1) s

/-- Modelled from the spec: the access-control semantics of a filter
expression; a record with the given allowed_groups satisfies the filter
when some clause literal is among its groups. An unparseable expression
is satisfied by nothing. -/
def filterSat (s : Str) (allowed : List Str) : Bool :=
  match parseFilter s with
  | some gs => gs.any (fun g => allowed.any (fun x => decide (x = g)))
  | none => false

/-- Embeds the request body assembled by
retrieval.AzureSearchRetriever.retrieve: an optional field holds none
exactly when the corresponding key is left out of the body dict. -/
structure SearchBody where
  search : Str
  top : Int
  select : Str
  includeTotalResultCount : Bool
  vectors_value : List ℚ
  vectors_fields : Str
  vectors_k : Int
  filter : Option Str
  queryType : Option Str
  semanticConfiguration : Option Str

/-- Embeds the body-construction steps of retrieve: the filter key is
attached only for a truthy filter clause, the semantic keys only for a
truthy configured name. -/
def mkSearchBody (query : Str) (vector : List ℚ) (top_k : Int) (user_groups : List Str)
    (select_fields : List Str) (vector_field : Str) (semantic_configuration : Option Str) :
    SearchBody :=
  { search := query
    top := top_k
    select := joinSep [','] select_fields
    includeTotalResultCount := false
    vectors_value := vector
    vectors_fields := vector_field
    vectors_k := top_k
    filter :=
      match filter_for_groups user_groups with
      | some s => if s ≠ [] then some s else none
      | none => none
    queryType :=
      match semantic_configuration with
      | some c => if c ≠ [] then some (("semantic").toList) else none
      | none => none
    semanticConfiguration :=
      match semantic_configuration with
      | some c => if c ≠ [] then some c else none
      | none => none }

/-- A raw backend record as consumed by the normalization loop of
retrieve: every field access goes through dict.get and may be absent. -/
structure RawRecord where
  id : Option Str := none
  doc_id : Option Str := none
  rev : Option Str := none
  text : Option Str := none
  score : Option ℚ := none
  section_path : Option Str := none
  page_start : Option Int := none
  page_end : Option Int := none
  source_url : Option Str := none
  allowed_groups : Option (List Str) := none
  metadata_json : Option Str := none
  highlights_text : Option (List Str) := none

/-- Embeds the per-record normalization loop of
retrieval.AzureSearchRetriever.retrieve. The structured parse performed
by json.loads is a parameter; a parse failure on a non-empty payload
falls back to a map holding the raw text under the raw key, and missing
fields default to empty or none. -/
def normalizeRecord (parse : Str → Option (List (Str × JVal))) (raw : RawRecord) : SearchResult :=
  let metadata : List (Str × JVal) :=
    match raw.metadata_json with
    | some s =>
      if s ≠ [] then
        match parse s with
        | some d => d
        | none => [((("raw").toList), JVal.str s)]
      else []
    | none => []
  let highlight : Option Str :=
    match raw.highlights_text with
    | some vals => if vals ≠ [] then some (joinSep ((" ... ").toList) vals) else none
    | none => none
  { chunk_id := raw.id.getD []
    doc_id := raw.doc_id.getD []
    rev := raw.rev.getD []
    text := raw.text.getD []
    score := raw.score.getD 0
    section_path := raw.section_path
    page_start := raw.page_start
    page_end := raw.page_end
    source_url := raw.source_url.getD []
    allowed_groups := raw.allowed_groups.getD []
    metadata := metadata
    highlights := highlight }

def emptyRawRecord : RawRecord := {}

def rawWithBadMeta : RawRecord := { metadata_json := some (("oops").toList) }

/-- Embeds reranking._cosine_similarity over exact rationals, with the
square roots taken in the real numbers; a zero norm on either side
yields zero. -/
noncomputable def cosineSimilarity (a b : List ℚ) : ℝ :=
  let dot : ℚ := ((a.zip b).map (fun p => p.1 * p.2)).sum
  let norm_a : ℝ := Real.sqrt (((a.map (fun x => x * x)).sum : ℚ) : ℝ)
  let norm_b : ℝ := Real.sqrt (((b.map (fun y => y * y)).sum : ℚ) : ℝ)
  if norm_a = 0 ∨ norm_b = 0 then 0 else (dot : ℝ) / (norm_a * norm_b)

/-- Embeds reranking.EmbeddingSimilarityReranker.rerank, parameterized by
the embedding provider. The provider contract promises one vector per
input text; an empty provider response would fault in the source, which
the embedding reflects as none. The stable descending sort of the source
is a merge sort under the at-least comparison on scores. -/
noncomputable def rerank (embed : List Str → List (List ℚ)) (query : Str)
    (candidates : List SearchResult) (top_n : Nat) : Option (List SearchResult) :=
  if candidates.isEmpty then some []
  else
    match embed (query :: candidates.map SearchResult.text) with
    | [] => none
    | query_vector :: doc_vectors =>
      let scored : List (ℝ × SearchResult) :=
        (candidates.zip doc_vectors).map (fun p => (cosineSimilarity query_vector p.2, p.1))
      let ranked := scored.mergeSort (fun x y => decide (y.1 ≤ x.1))
      some ((ranked.take top_n).map (fun p => p.2))

/-- The scored pair list built by the rerank loop, named for use in
statements about the sort. -/
noncomputable def rerankScored (embed : List Str → List (List ℚ)) (query : Str)
    (candidates : List SearchResult) : List (ℝ × SearchResult) :=
  match embed (query :: candidates.map SearchResult.text) with
  | [] => []
  | query_vector :: doc_vectors =>
    (candidates.zip doc_vectors).map (fun p => (cosineSimilarity query_vector p.2, p.1))

/-- Group identifier carrying expression metacharacters: a quote, a
closing parenthesis and a whole second clause head. -/
def injGroup : Str :=
  ("x").toList ++ [sqc, ')'] ++ (" or allowed_groups/any(g: g eq ").toList ++ [sqc] ++ ("y").toList

/-- Loop invariant for the pack-size bound: the pack never holds more
than max(1, max_chunks) entries, and while the loop is still running it
is strictly below max_chunks or still empty. -/
def GroundInv (m : Int) (st : GroundState) : Prop :=
  ((st.pack.length : Int) ≤ max 1 m) ∧
  (st.stopped = false → ((st.pack.length : Int) < m ∨ st.pack.length = 0))

/-- C2: the claim states that a document whose single block estimates
above max_tokens is force-flushed as exactly one chunk with no
repetition. Evaluating chunk_document on such a document shows the block
text is emitted three times: the soft flush, the forced flush, and the
end-of-document flush each emit the full buffer, because the overlap
tail retains the whole oversized block. -/
theorem c2_single_oversized_block_emitted_three_times :
    estimateTokens bigBlock.text = 5 ∧
    smallCfg.overlap_tokens < smallCfg.target_tokens ∧
    smallCfg.target_tokens < smallCfg.max_tokens ∧
    smallCfg.max_tokens < estimateTokens bigBlock.text ∧
    (chunk_document singleBlockDoc smallCfg).map Chunk.text =
      [bigBlock.text, bigBlock.text, bigBlock.text] := by
  refine ⟨rfl, by decide, by decide, by decide, ?_⟩
  rfl

/-- C4: the claim states every chunk token estimate stays at or below
max_tokens except chunks made of a single block already above it.
Evaluating chunk_document on two seven-token blocks under config
(target 5, overlap 1, max 10) produces a middle chunk holding both
blocks with estimate 15, above max_tokens, while each of its two blocks
alone estimates to 7, below max_tokens. -/
theorem c4_two_block_chunk_exceeds_max_tokens :
    c4Cfg.overlap_tokens < c4Cfg.target_tokens ∧
    c4Cfg.target_tokens < c4Cfg.max_tokens ∧
    (chunk_document twoBlockDoc c4Cfg).map Chunk.token_count = [7, 15, 7] ∧
    (chunk_document twoBlockDoc c4Cfg).map Chunk.text =
      [blockA.text, blockA.text ++ nl :: blockB.text, blockB.text] ∧
    estimateTokens blockA.text ≤ c4Cfg.max_tokens ∧
    estimateTokens blockB.text ≤ c4Cfg.max_tokens ∧
    c4Cfg.max_tokens < 15 := by
  refine ⟨by decide, by decide, ?_, ?_, by decide, by decide, by decide⟩
  · rfl
  · rfl

lemma gkeyG_toGroundingChunk (c : SearchResult) : gkeyG (toGroundingChunk c) = groundKey c := rfl

lemma groundRun_cons (m : Int) (dv : Bool) (st : GroundState) (c : SearchResult) (cs : List SearchResult) :
    groundRun m dv st (c :: cs) = groundRun m dv (groundStep m dv st c) cs := rfl

lemma groundStep_of_stopped {m : Int} {dv : Bool} {st : GroundState} (c : SearchResult)
    (h : st.stopped = true) : groundStep m dv st c = st := by
  simp [groundStep, h]

lemma groundRun_of_stopped {m : Int} {dv : Bool} {st : GroundState} (cs : List SearchResult)
    (h : st.stopped = true) : groundRun m dv st cs = st := by
  induction cs with
  | nil => rfl
  | cons c cs ih => rw [groundRun_cons, groundStep_of_stopped c h]; exact ih

lemma groundStep_pack_eq (m : Int) (dv : Bool) (st : GroundState) (c : SearchResult) :
    (groundStep m dv st c).pack = st.pack ∨
    (groundStep m dv st c).pack = st.pack ++ [toGroundingChunk c] := by
  unfold groundStep
  split_ifs <;> simp

lemma groundRun_pack_extend (m : Int) (dv : Bool) :
    ∀ (cs : List SearchResult) (st : GroundState),
    ∃ l : List SearchResult,
      l.Sublist cs ∧ (groundRun m dv st cs).pack = st.pack ++ l.map toGroundingChunk := by
  intro cs
  induction cs with
  | nil => exact fun st => ⟨[], List.nil_sublist _, by simp [groundRun]⟩
  | cons c cs ih =>
    intro st
    rw [groundRun_cons]
    obtain ⟨l, hl, hp⟩ := ih (groundStep m dv st c)
    rcases groundStep_pack_eq m dv st c with h | h
    · exact ⟨l, List.Sublist.cons c hl, by rw [hp, h]⟩
    · exact ⟨c :: l, List.Sublist.cons₂ c hl, by rw [hp, h]; simp⟩

lemma groundStep_inv {m : Int} {dv : Bool} {st : GroundState} (c : SearchResult)
    (h : GroundInv m st) : GroundInv m (groundStep m dv st c) := by
  obtain ⟨h1, h2⟩ := h
  unfold groundStep
  split_ifs with hs hseen hcap hdv
  · exact ⟨h1, h2⟩
  · exact ⟨h1, h2⟩
  · exact ⟨h1, h2⟩
  all_goals
    have hst : st.stopped = false := by simpa using hs
    refine ⟨?_, ?_⟩
  all_goals
    simp only [List.length_append, List.length_cons, List.length_nil]
  · rcases h2 hst with hlt | h0
    · exact le_max_iff.mpr (Or.inr (by omega))
    · exact le_max_iff.mpr (Or.inl (by omega))
  · intro hsf
    left
    simp only [decide_eq_false_iff_not, not_le, List.length_append, List.length_cons,
      List.length_nil] at hsf
    omega
  · rcases h2 hst with hlt | h0
    · exact le_max_iff.mpr (Or.inr (by omega))
    · exact le_max_iff.mpr (Or.inl (by omega))
  · intro hsf
    left
    simp only [decide_eq_false_iff_not, not_le, List.length_append, List.length_cons,
      List.length_nil] at hsf
    omega

lemma groundRun_inv {m : Int} {dv : Bool} :
    ∀ (cs : List SearchResult) (st : GroundState), GroundInv m st → GroundInv m (groundRun m dv st cs) := by
  intro cs
  induction cs with
  | nil => exact fun st h => h
  | cons c cs ih => exact fun st h => by rw [groundRun_cons]; exact ih _ (groundStep_inv c h)

lemma groundRun_keys (m : Int) (dv : Bool) :
    ∀ (cs : List SearchResult) (st : GroundState),
    (∀ p ∈ st.pack, gkeyG p ∈ st.seen) →
    ((st.pack.map gkeyG).Nodup) →
    (((groundRun m dv st cs).pack.map gkeyG).Nodup ∧
      ∀ p ∈ (groundRun m dv st cs).pack,
        p ∈ st.pack ∨
          (gkeyG p ∉ st.seen ∧
            ∃ c, cs.find? (keyMatch (gkeyG p)) = some c ∧ p = toGroundingChunk c)) := by
  intro cs
  induction cs with
  | nil =>
    intro st hseenall hnd
    exact ⟨hnd, fun p hp => Or.inl hp⟩
  | cons c cs ih =>
    intro st hseenall hnd
    rw [groundRun_cons]
    by_cases hs : st.stopped = true
    · rw [groundStep_of_stopped c hs, groundRun_of_stopped cs hs]
      exact ⟨hnd, fun p hp => Or.inl hp⟩
    · have hs' : st.stopped = false := by simpa using hs
      by_cases hseen : groundKey c ∈ st.seen
      · have hstep : groundStep m dv st c = st := by simp [groundStep, hs', hseen]
        rw [hstep]
        obtain ⟨nd, hall⟩ := ih st hseenall hnd
        refine ⟨nd, fun p hp => ?_⟩
        rcases hall p hp with hin | ⟨hnot, cc, hf, hcc⟩
        · exact Or.inl hin
        · refine Or.inr ⟨hnot, cc, ?_, hcc⟩
          have hne : ¬(keyMatch (gkeyG p) c = true) := by
            simp only [keyMatch, decide_eq_true_eq]
            intro he
            exact hnot (he ▸ hseen)
          rw [List.find?_cons_of_neg _ hne]
          exact hf
      · by_cases hcap : dv = true ∧ divCap m ≤ (st.counts c.doc_id : Int)
        · have hstep : groundStep m dv st c = { st with seen := groundKey c :: st.seen } := by
            simp [groundStep, hs', hseen, hcap.1, hcap.2]
          rw [hstep]
          obtain ⟨nd, hall⟩ := ih { st with seen := groundKey c :: st.seen }
            (fun p hp => List.mem_cons_of_mem _ (hseenall p hp)) hnd
          refine ⟨nd, fun p hp => ?_⟩
          rcases hall p hp with hin | ⟨hnot, cc, hf, hcc⟩
          · exact Or.inl hin
          · have hne : gkeyG p ≠ groundKey c := by
              intro he
              exact hnot (he ▸ List.mem_cons_self _ _)
            refine Or.inr ⟨fun hmem => hnot (List.mem_cons_of_mem _ hmem), cc, ?_, hcc⟩
            have hne2 : ¬(keyMatch (gkeyG p) c = true) := by
              simp only [keyMatch, decide_eq_true_eq]
              exact fun he => hne he.symm
            rw [List.find?_cons_of_neg _ hne2]
            exact hf
        · have hstep : groundStep m dv st c =
              { seen := groundKey c :: st.seen
                counts :=
                  if dv then
                    fun d => if d = c.doc_id then st.counts c.doc_id + 1 else st.counts d
                  else st.counts
                pack := st.pack ++ [toGroundingChunk c]
                stopped := decide (m ≤ ((st.pack ++ [toGroundingChunk c]).length : Int)) } := by
            simp only [groundStep, hs', hseen, hcap]
            simp
          rw [hstep]
          have hkc : groundKey c ∉ st.pack.map gkeyG := by
            intro hmem
            obtain ⟨p, hp, hpk⟩ := List.mem_map.mp hmem
            exact hseen (hpk ▸ hseenall p hp)
          have hnd2 : (((st.pack ++ [toGroundingChunk c]).map gkeyG)).Nodup := by
            rw [List.map_append]
            refine List.nodup_append.mpr ⟨hnd, List.nodup_singleton _, ?_⟩
            intro k hk1 hk2
            simp only [List.map_cons, List.map_nil, List.mem_singleton,
              gkeyG_toGroundingChunk] at hk2
            exact hkc (hk2 ▸ hk1)
          have hsa2 : ∀ p ∈ st.pack ++ [toGroundingChunk c], gkeyG p ∈ groundKey c :: st.seen := by
            intro p hp
            rcases List.mem_append.mp hp with hin | hin
            · exact List.mem_cons_of_mem _ (hseenall p hin)
            · simp only [List.mem_singleton] at hin
              rw [hin, gkeyG_toGroundingChunk]
              exact List.mem_cons_self _ _
          obtain ⟨nd, hall⟩ := ih
            { seen := groundKey c :: st.seen
              counts :=
                if dv then
                  fun d => if d = c.doc_id then st.counts c.doc_id + 1 else st.counts d
                else st.counts
              pack := st.pack ++ [toGroundingChunk c]
              stopped := decide (m ≤ ((st.pack ++ [toGroundingChunk c]).length : Int)) }
            hsa2 hnd2
          refine ⟨nd, fun p hp => ?_⟩
          rcases hall p hp with hin | ⟨hnot, cc, hf, hcc⟩
          · rcases List.mem_append.mp hin with hin2 | hin2
            · exact Or.inl hin2
            · simp only [List.mem_singleton] at hin2
              refine Or.inr ⟨?_, c, ?_, hin2⟩
              · rw [hin2, gkeyG_toGroundingChunk]
                exact hseen
              · have hpos : keyMatch (gkeyG p) c = true := by
                  simp only [keyMatch, decide_eq_true_eq, hin2, gkeyG_toGroundingChunk]
                rw [List.find?_cons_of_pos _ hpos]
          · have hne : gkeyG p ≠ groundKey c := by
              intro he
              exact hnot (he ▸ List.mem_cons_self _ _)
            refine Or.inr ⟨fun hmem => hnot (List.mem_cons_of_mem _ hmem), cc, ?_, hcc⟩
            have hne2 : ¬(keyMatch (gkeyG p) c = true) := by
              simp only [keyMatch, decide_eq_true_eq]
              exact fun he => hne he.symm
            rw [List.find?_cons_of_neg _ hne2]
            exact hf

lemma doc_id_toGroundingChunk (c : SearchResult) : (toGroundingChunk c).doc_id = c.doc_id := rfl

lemma groundRun_counts (m : Int) :
    ∀ (cs : List SearchResult) (st : GroundState),
    (∀ dd : Str,
      (st.pack.filter (fun p => p.doc_id = dd)).length = st.counts dd ∧
        (st.counts dd : Int) ≤ divCap m) →
    ∀ dd : Str,
      ((groundRun m true st cs).pack.filter (fun p => p.doc_id = dd)).length =
          (groundRun m true st cs).counts dd ∧
        (((groundRun m true st cs).counts dd : Int) ≤ divCap m) := by
  intro cs
  induction cs with
  | nil => exact fun st h => h
  | cons c cs ih =>
    intro st h
    rw [groundRun_cons]
    by_cases hs : st.stopped = true
    · rw [groundStep_of_stopped c hs]
      exact ih st h
    · have hs' : st.stopped = false := by simpa using hs
      by_cases hseen : groundKey c ∈ st.seen
      · have hstep : groundStep m true st c = st := by simp [groundStep, hs', hseen]
        rw [hstep]
        exact ih st h
      · by_cases hcap : divCap m ≤ (st.counts c.doc_id : Int)
        · have hstep : groundStep m true st c = { st with seen := groundKey c :: st.seen } := by
            simp [groundStep, hs', hseen, hcap]
          rw [hstep]
          exact ih _ (fun dd => h dd)
        · have hstep : groundStep m true st c =
              { seen := groundKey c :: st.seen
                counts := fun d => if d = c.doc_id then st.counts c.doc_id + 1 else st.counts d
                pack := st.pack ++ [toGroundingChunk c]
                stopped := decide (m ≤ ((st.pack ++ [toGroundingChunk c]).length : Int)) } := by
            simp only [groundStep, hs', hseen, hcap]
            simp
          rw [hstep]
          refine ih _ (fun dd => ?_)
          by_cases hdd : dd = c.doc_id
          · constructor
            · have hone :
                  ((List.filter (fun p => decide (p.doc_id = dd)) [toGroundingChunk c]).length) = 1 := by
                simp [doc_id_toGroundingChunk, hdd]
              simp only [List.filter_append, List.length_append, hone, if_pos hdd]
              rw [(h dd).1, hdd]
            · simp only [if_pos hdd]
              have hlt := (h c.doc_id).2
              push_cast
              omega
          · constructor
            · have hzero :
                  ((List.filter (fun p => decide (p.doc_id = dd)) [toGroundingChunk c]).length) = 0 := by
                simp only [List.filter_cons, List.filter_nil, doc_id_toGroundingChunk]
                rw [decide_eq_false (fun hcon => hdd hcon.symm)]
                rfl
              simp only [List.filter_append, List.length_append, hzero, if_neg hdd]
              rw [(h dd).1]
              omega
            · simp only [if_neg hdd]
              exact (h dd).2

lemma groundStep_seen_mono {m : Int} {dv : Bool} {st : GroundState} (c : SearchResult)
    {k : GKey} (h : k ∈ st.seen) : k ∈ (groundStep m dv st c).seen := by
  unfold groundStep
  split_ifs <;> simp [h]

lemma groundStep_pack_sub {m : Int} {dv : Bool} {st : GroundState} {c : SearchResult} :
    ∀ p ∈ (groundStep m dv st c).pack,
      p ∈ st.pack ∨ (p = toGroundingChunk c ∧ groundKey c ∉ st.seen) := by
  unfold groundStep
  split_ifs with h1 h2 h3 h4
  · exact fun p hp => Or.inl hp
  · exact fun p hp => Or.inl hp
  · exact fun p hp => Or.inl hp
  all_goals
    intro p hp
    simp only [List.mem_append, List.mem_singleton] at hp
    rcases hp with hin | hin
    · exact Or.inl hin
    · exact Or.inr ⟨hin, h2⟩

lemma groundRun_no_new_key {m : Int} {dv : Bool} :
    ∀ (cs : List SearchResult) (st : GroundState) (k : GKey),
    k ∈ st.seen → (∀ p ∈ st.pack, gkeyG p ≠ k) →
    ∀ p ∈ (groundRun m dv st cs).pack, gkeyG p ≠ k := by
  intro cs
  induction cs with
  | nil => exact fun st k _ hp => hp
  | cons c cs ih =>
    intro st k hk hp
    rw [groundRun_cons]
    refine ih (groundStep m dv st c) k (groundStep_seen_mono c hk) ?_
    intro p hmem
    rcases groundStep_pack_sub p hmem with hin | ⟨hpc, hns⟩
    · exact hp p hin
    · subst hpc
      rw [gkeyG_toGroundingChunk]
      intro he
      subst he
      exact hns hk

lemma groundStep_pack_keys_seen {m : Int} {dv : Bool} {st : GroundState} (c : SearchResult)
    (h : ∀ p ∈ st.pack, gkeyG p ∈ st.seen) :
    ∀ p ∈ (groundStep m dv st c).pack, gkeyG p ∈ (groundStep m dv st c).seen := by
  unfold groundStep
  split_ifs with h1 h2 h3 h4
  · exact h
  · exact h
  · exact fun p hp => List.mem_cons_of_mem _ (h p hp)
  all_goals
    intro p hp
    simp only [List.mem_append, List.mem_singleton] at hp
    rcases hp with hin | hin
    · exact List.mem_cons_of_mem _ (h p hin)
    · subst hin
      rw [gkeyG_toGroundingChunk]
      exact List.mem_cons_self _ _

lemma groundRun_pack_keys_seen {m : Int} {dv : Bool} :
    ∀ (cs : List SearchResult) (st : GroundState),
    (∀ p ∈ st.pack, gkeyG p ∈ st.seen) →
    ∀ p ∈ (groundRun m dv st cs).pack, gkeyG p ∈ (groundRun m dv st cs).seen := by
  intro cs
  induction cs with
  | nil => exact fun st h => h
  | cons c cs ih =>
    intro st h
    rw [groundRun_cons]
    exact ih _ (groundStep_pack_keys_seen c h)

/-- C3 counterexample: with max_chunks = 0 and one candidate, the pack
still receives one entry, because the size check runs only after an
append; the claimed bound length at most max_chunks fails at zero. -/
theorem c3_counterexample_zero_max_chunks :
    (build_grounding_pack [cand1] 0 true).length = 1 ∧
    ¬(((build_grounding_pack [cand1] 0 true).length : Int) ≤ 0) := by
  constructor
  · rfl
  · decide

/-- C3 (amended): the grounding pack is an order-preserving selection of
the candidates, and its length is at most max(1, max_chunks); for any
max_chunks of at least one this is the claimed bound, while max_chunks
of zero or below still allows one entry. -/
theorem c3_pack_is_ordered_selection_and_bounded
    (cands : List SearchResult) (maxc : Int) (dv : Bool) :
    ∃ l : List SearchResult,
      l.Sublist cands ∧
      build_grounding_pack cands maxc dv = l.map toGroundingChunk ∧
      ((build_grounding_pack cands maxc dv).length : Int) ≤ max 1 maxc := by
  obtain ⟨l, hl, hp⟩ := groundRun_pack_extend maxc dv cands initGroundState
  have hinv : GroundInv maxc (groundRun maxc dv initGroundState cands) := by
    apply groundRun_inv
    refine ⟨?_, fun _ => Or.inr rfl⟩
    simp [initGroundState]
  refine ⟨l, hl, ?_, hinv.1⟩
  simpa [build_grounding_pack, initGroundState] using hp

/-- C7: no two entries of the grounding pack share the deduplication key
(doc_id, section_path, page_start, page_end), and every pack entry comes
from the first candidate in input order that carries its key. -/
theorem c7_dedup_key_unique_and_first_kept
    (cands : List SearchResult) (maxc : Int) (dv : Bool) :
    ((build_grounding_pack cands maxc dv).map gkeyG).Nodup ∧
    ∀ p ∈ build_grounding_pack cands maxc dv,
      ∃ c, cands.find? (keyMatch (gkeyG p)) = some c ∧ p = toGroundingChunk c := by
  obtain ⟨nd, hall⟩ := groundRun_keys maxc dv cands initGroundState
    (by intro p hp; simp [initGroundState] at hp) (by simp [initGroundState])
  refine ⟨nd, fun p hp => ?_⟩
  rcases hall p hp with hin | ⟨-, c, hf, hc⟩
  · simp [initGroundState] at hin
  · exact ⟨c, hf, hc⟩

/-- C8: with diversification on, no doc_id contributes more than
max(2, max_chunks // 3) entries to the grounding pack, for every
candidate list and every max_chunks. -/
theorem c8_diversify_caps_per_doc (cands : List SearchResult) (maxc : Int) (dd : Str) :
    (((build_grounding_pack cands maxc true).filter (fun p => p.doc_id = dd)).length : Int) ≤
      max 2 (Int.fdiv maxc 3) := by
  have h := groundRun_counts maxc cands initGroundState
    (fun dd => ⟨by simp [initGroundState], by
      have h2 : (0 : Int) ≤ divCap maxc := le_trans (by norm_num) (le_max_left 2 _)
      simpa [initGroundState] using h2⟩) dd
  have hle := h.2
  rw [← h.1] at hle
  simpa [divCap] using hle

/-- C10: a candidate rejected by the diversification cap still registers
its deduplication key, so no entry carrying that key ever appears in the
pack, even when later candidates carry the same key. -/
theorem c10_cap_rejected_key_blocks_duplicates
    (pre : List SearchResult) (c : SearchResult) (rest : List SearchResult) (maxc : Int)
    (h1 : (groundRun maxc true initGroundState pre).stopped = false)
    (h2 : groundKey c ∉ (groundRun maxc true initGroundState pre).seen)
    (h3 : divCap maxc ≤ ((groundRun maxc true initGroundState pre).counts c.doc_id : Int)) :
    ∀ p ∈ build_grounding_pack (pre ++ c :: rest) maxc true, gkeyG p ≠ groundKey c := by
  have hb : build_grounding_pack (pre ++ c :: rest) maxc true =
      (groundRun maxc true
        (groundStep maxc true (groundRun maxc true initGroundState pre) c) rest).pack := by
    simp [build_grounding_pack, groundRun, List.foldl_append]
  have hstep : groundStep maxc true (groundRun maxc true initGroundState pre) c =
      { groundRun maxc true initGroundState pre with
        seen := groundKey c :: (groundRun maxc true initGroundState pre).seen } := by
    simp [groundStep, h1, h2, h3]
  rw [hb, hstep]
  apply groundRun_no_new_key
  · exact List.mem_cons_self _ _
  · intro p hp
    have hmem : gkeyG p ∈ (groundRun maxc true initGroundState pre).seen :=
      groundRun_pack_keys_seen pre initGroundState
        (by intro q hq; simp [initGroundState] at hq) p hp
    exact fun he => h2 (he ▸ hmem)

/-- Witness for C10: with max_chunks 4 the cap is 2; two kept candidates
from doc dA exhaust it, the third dA candidate is cap-rejected, and the
fourth, sharing the key of the third, is excluded as well. -/
theorem c10_witness :
    ((groundRun 4 true initGroundState [cand1, cand2]).stopped = false ∧
      groundKey cand3 ∉ (groundRun 4 true initGroundState [cand1, cand2]).seen ∧
      divCap 4 ≤ ((groundRun 4 true initGroundState [cand1, cand2]).counts cand3.doc_id : Int)) ∧
    ∀ p ∈ build_grounding_pack ([cand1, cand2] ++ cand3 :: [cand4]) 4 true,
      gkeyG p ≠ groundKey cand3 :=
  ⟨⟨by decide, by decide, by decide⟩,
    c10_cap_rejected_key_blocks_duplicates [cand1, cand2] cand3 [cand4] 4
      (by decide) (by decide) (by decide)⟩

/-- C1: the claim states filter construction is injection-safe, group
identifiers being escaped so that metacharacters cannot change the
expression structure. The source interpolates the identifier verbatim:
a single group containing a quote and a clause head yields a filter that
the backend grammar reads as two equality clauses for the unrelated
groups x and y, so the structure of the filter is changed by the
identifier. -/
theorem c1_unescaped_group_changes_filter_structure :
    filter_for_groups [injGroup] = some (aclClause injGroup) ∧
    parseFilter (aclClause injGroup) = some [("x").toList, ("y").toList] ∧
    injGroup ≠ ("x").toList ∧ injGroup ≠ ("y").toList := by
  refine ⟨rfl, by decide, by decide, by decide⟩

lemma dropPre_append (p r : Str) : dropPre p (p ++ r) = some r := by
  induction p with
  | nil => rfl
  | cons c cs ih => simp [dropPre, ih]

lemma takeWhile_quote_free {g : Str} (hg : sqc ∉ g) (t : Str) :
    (g ++ sqc :: t).takeWhile (fun ch => decide (ch ≠ sqc)) = g := by
  induction g with
  | nil => simp [List.takeWhile_cons]
  | cons c cs ih =>
    simp only [List.mem_cons, not_or] at hg
    have hc : ¬(c = sqc) := fun h => hg.1 h.symm
    have ih2 := ih hg.2
    simp only [decide_not] at ih2
    simp [List.takeWhile_cons, hc, ih2]

lemma parseClauses_round :
    ∀ (gs : List Str) (fuel : Nat), gs ≠ [] → (∀ g ∈ gs, sqc ∉ g) → gs.length ≤ fuel →
    parseClauses fuel (joinSep orSep (gs.map aclClause)) = some gs := by
  intro gs
  induction gs with
  | nil => exact fun fuel h => absurd rfl h
  | cons g rest ih =>
    intro fuel hne hq hlen
    obtain ⟨f, rfl⟩ : ∃ f, fuel = f + 1 := ⟨fuel - 1, by simp at hlen; omega⟩
    have hgq : sqc ∉ g := hq g (List.mem_cons_self _ _)
    cases rest with
    | nil =>
      have hs : joinSep orSep ([g].map aclClause) = clausePre ++ (g ++ clauseClose) := by
        simp [joinSep, aclClause, List.append_assoc]
      rw [hs]
      have h1 : dropPre clausePre (clausePre ++ (g ++ clauseClose)) = some (g ++ clauseClose) :=
        dropPre_append _ _
      have hlit : List.takeWhile (fun ch => decide (ch ≠ sqc)) (g ++ clauseClose) = g := by
        simpa [clauseClose] using takeWhile_quote_free hgq [')']
      have h2 : dropPre (g ++ clauseClose) (g ++ clauseClose) = some [] := by
        simpa using dropPre_append (g ++ clauseClose) []
      simp only [parseClauses, h1, Option.some_bind, hlit, h2]
      simp
    | cons g2 rest2 =>
      have hs : joinSep orSep ((g :: g2 :: rest2).map aclClause) =
          clausePre ++
            (g ++ (clauseClose ++ (orSep ++ joinSep orSep ((g2 :: rest2).map aclClause)))) := by
        simp [joinSep, aclClause, List.append_assoc]
      rw [hs]
      have h1 : dropPre clausePre
          (clausePre ++
            (g ++ (clauseClose ++ (orSep ++ joinSep orSep ((g2 :: rest2).map aclClause))))) =
          some (g ++ (clauseClose ++ (orSep ++ joinSep orSep ((g2 :: rest2).map aclClause)))) :=
        dropPre_append _ _
      have hlit : List.takeWhile (fun ch => decide (ch ≠ sqc))
          (g ++ (clauseClose ++ (orSep ++ joinSep orSep ((g2 :: rest2).map aclClause)))) = g := by
        simpa [clauseClose] using
          takeWhile_quote_free hgq (')' :: (orSep ++ joinSep orSep ((g2 :: rest2).map aclClause)))
      have h2 : dropPre (g ++ clauseClose)
          (g ++ (clauseClose ++ (orSep ++ joinSep orSep ((g2 :: rest2).map aclClause)))) =
          some (orSep ++ joinSep orSep ((g2 :: rest2).map aclClause)) := by
        have := dropPre_append (g ++ clauseClose) (orSep ++ joinSep orSep ((g2 :: rest2).map aclClause))
        simpa [List.append_assoc] using this
      have hne2 : orSep ++ joinSep orSep ((g2 :: rest2).map aclClause) ≠ [] := by
        simp [orSep]
      have h3 : dropPre orSep (orSep ++ joinSep orSep ((g2 :: rest2).map aclClause)) =
          some (joinSep orSep ((g2 :: rest2).map aclClause)) := dropPre_append _ _
      have h4 : parseClauses f (joinSep orSep ((g2 :: rest2).map aclClause)) = some (g2 :: rest2) := by
        refine ih f (by simp) (fun x hx => hq x (List.mem_cons_of_mem _ hx)) ?_
        simp at hlen
        simpa using hlen
      simp only [parseClauses, h1, Option.some_bind, hlit, h2]
      rw [if_neg hne2]
      simp only [h3, Option.some_bind, h4, Option.map_some']

lemma joinSep_acl_length : ∀ gs : List Str, gs.length ≤ (joinSep orSep (gs.map aclClause)).length := by
  intro gs
  induction gs with
  | nil => simp [joinSep]
  | cons g rest ih =>
    have hg : 1 ≤ (aclClause g).length := by
      simp [aclClause, clausePre, clauseClose]
    cases rest with
    | nil =>
      simpa [joinSep] using hg
    | cons g2 r2 =>
      have : joinSep orSep ((g :: g2 :: r2).map aclClause) =
          aclClause g ++ orSep ++ joinSep orSep ((g2 :: r2).map aclClause) := by
        simp [joinSep]
      rw [this]
      simp only [List.length_append, List.length_cons]
      simp only [List.length_cons] at ih
      omega

lemma joinSep_acl_ne_nil (gs : List Str) (hne : gs ≠ []) :
    joinSep orSep (gs.map aclClause) ≠ [] := by
  have h := joinSep_acl_length gs
  intro hcon
  rw [hcon] at h
  cases gs with
  | nil => exact hne rfl
  | cons g r => simp at h

lemma parseFilter_round (gs : List Str) (hne : gs ≠ []) (hq : ∀ g ∈ gs, sqc ∉ g) :
    parseFilter (joinSep orSep (gs.map aclClause)) = some gs := by
  apply parseClauses_round gs _ hne hq
  have := joinSep_acl_length gs
  omega

/-- C6 (amended): the request body carries no filter field for empty
user_groups; for non-empty user_groups whose identifiers are free of the
quote metacharacter, the attached filter is satisfied by a record
exactly when some user group is among its allowed_groups. The
restriction to quote-free identifiers is forced by the injection defect
recorded for C1. -/
theorem c6_filter_presence_and_semantics
    (query : Str) (vector : List ℚ) (top_k : Int) (select_fields : List Str)
    (vector_field : Str) (sem : Option Str) (user_groups allowed : List Str)
    (hq : ∀ g ∈ user_groups, sqc ∉ g) :
    (mkSearchBody query vector top_k [] select_fields vector_field sem).filter = none ∧
    (user_groups ≠ [] →
      ∃ f,
        (mkSearchBody query vector top_k user_groups select_fields vector_field sem).filter =
          some f ∧
        (filterSat f allowed = true ↔ ∃ g ∈ user_groups, g ∈ allowed)) := by
  constructor
  · simp [mkSearchBody, filter_for_groups]
  · intro hne
    refine ⟨joinSep orSep (user_groups.map aclClause), ?_, ?_⟩
    · simp [mkSearchBody, filter_for_groups, hne, joinSep_acl_ne_nil user_groups hne]
    · rw [filterSat, parseFilter_round user_groups hne hq]
      simp [List.any_eq_true]

/-- Witness for C6: one quote-free group named legal, allowed groups
containing legal. -/
theorem c6_witness :
    (∀ g ∈ [("legal").toList], sqc ∉ g) ∧
    ([("legal").toList] ≠ ([] : List Str)) ∧
    ((mkSearchBody (("q").toList) [] 10 [] [] (("embedding_vector").toList) none).filter = none ∧
      ([("legal").toList] ≠ ([] : List Str) →
        ∃ f,
          (mkSearchBody (("q").toList) [] 10 [("legal").toList] []
            (("embedding_vector").toList) none).filter = some f ∧
          (filterSat f [("legal").toList] = true ↔
            ∃ g ∈ [("legal").toList], g ∈ [("legal").toList]))) :=
  ⟨by decide, by decide,
    c6_filter_presence_and_semantics (("q").toList) [] 10 [] (("embedding_vector").toList)
      none [("legal").toList] [("legal").toList] (by decide)⟩

/-- C6 counterexample: a group identifier containing a quote defeats the
claimed equivalence between filter satisfaction and group intersection:
the single injected group is not among the allowed groups, yet the
produced filter is satisfied. -/
theorem c6_counterexample_quote_group :
    (mkSearchBody (("q").toList) [] 10 [injGroup] [] (("embedding_vector").toList) none).filter =
      some (aclClause injGroup) ∧
    filterSat (aclClause injGroup) [("y").toList] = true ∧
    ¬(∃ g ∈ [injGroup], g ∈ [("y").toList]) := by
  refine ⟨rfl, by decide, by decide⟩

/-- C9: per-record normalization is total and forgiving: a non-empty
metadata payload that the structured parse rejects is preserved verbatim
under the raw fallback key, and a record with every optional field
missing normalizes to empty or none defaults rather than failing. -/
theorem c9_normalization_fallback_and_defaults
    (parse : Str → Option (List (Str × JVal))) (raw : RawRecord) (s : Str)
    (h1 : raw.metadata_json = some s) (h2 : s ≠ []) (h3 : parse s = none) :
    (normalizeRecord parse raw).metadata = [((("raw").toList), JVal.str s)] ∧
    normalizeRecord parse emptyRawRecord =
      { chunk_id := [], doc_id := [], rev := [], text := [], score := 0,
        section_path := none, page_start := none, page_end := none,
        source_url := [], allowed_groups := [], metadata := [], highlights := none } := by
  constructor
  · simp [normalizeRecord, h1, h2, h3]
  · rfl

/-- Witness for C9: a parse that always fails and a record whose
metadata payload is the non-empty text oops. -/
theorem c9_witness :
    (rawWithBadMeta.metadata_json = some (("oops").toList) ∧
      (("oops").toList : Str) ≠ [] ∧
      (fun _ : Str => (none : Option (List (Str × JVal)))) (("oops").toList) = none) ∧
    ((normalizeRecord (fun _ => none) rawWithBadMeta).metadata =
        [((("raw").toList), JVal.str (("oops").toList))] ∧
      normalizeRecord (fun _ => none) emptyRawRecord =
        { chunk_id := [], doc_id := [], rev := [], text := [], score := 0,
          section_path := none, page_start := none, page_end := none,
          source_url := [], allowed_groups := [], metadata := [], highlights := none }) :=
  ⟨⟨rfl, by decide, rfl⟩,
    c9_normalization_fallback_and_defaults (fun _ => none) rawWithBadMeta (("oops").toList)
      rfl (by decide) rfl⟩

lemma rerankScored_nil (embed : List Str → List (List ℚ)) (query : Str) :
    rerankScored embed query [] = [] := by
  unfold rerankScored
  cases embed (query :: List.map SearchResult.text []) <;> simp

/-- C5: under the provider contract of one vector per text, rerank
returns a selection of the candidates of length min(top_n, count),
ordered by descending cosine similarity of the per-position scores, with
the stable sort preserving the original relative order among equal
scores; cosine similarity against a zero vector is zero. -/
theorem c5_rerank_sorted_stable_selection
    (embed : List Str → List (List ℚ)) (query : Str)
    (candidates : List SearchResult) (top_n : Nat)
    (hlen : (embed (query :: candidates.map SearchResult.text)).length =
      (query :: candidates.map SearchResult.text).length) :
    (∀ a b : List ℚ,
      ((a.map (fun x => x * x)).sum = 0 ∨ (b.map (fun y => y * y)).sum = 0) →
      cosineSimilarity a b = 0) ∧
    ∃ out, rerank embed query candidates top_n = some out ∧
      out.Subperm candidates ∧
      out.length = min top_n candidates.length ∧
      ∃ ranked : List (ℝ × SearchResult),
        ranked.Perm (rerankScored embed query candidates) ∧
        (ranked.map Prod.fst).Sorted (fun a b => b ≤ a) ∧
        (∀ s : ℝ, ranked.filter (fun p => p.1 = s) =
          (rerankScored embed query candidates).filter (fun p => p.1 = s)) ∧
        out = (ranked.take top_n).map Prod.snd := by
  constructor
  · intro a b h
    rcases h with h | h <;> simp [cosineSimilarity, h]
  · by_cases hnil : candidates = []
    · subst hnil
      exact ⟨[], by simp [rerank], List.nil_subperm, by simp, [],
        by simp [rerankScored_nil], by simp, by simp [rerankScored_nil], by simp⟩
    · have hni : candidates.isEmpty = false := by
        simpa [List.isEmpty_iff] using hnil
      cases hE : embed (query :: candidates.map SearchResult.text) with
      | nil => rw [hE] at hlen; simp at hlen
      | cons qv dvs =>
        have hdvs : dvs.length = candidates.length := by
          rw [hE] at hlen
          simpa using hlen
        set le : (ℝ × SearchResult) → (ℝ × SearchResult) → Bool :=
          fun x y => decide (y.1 ≤ x.1) with hle
        set scored : List (ℝ × SearchResult) :=
          (candidates.zip dvs).map (fun p => (cosineSimilarity qv p.2, p.1)) with hsc
        set ranked := scored.mergeSort le with hrk
        have htrans : ∀ a b c : ℝ × SearchResult, le a b → le b c → le a c := by
          intro a b c hab hbc
          simp only [hle, decide_eq_true_eq] at hab hbc ⊢
          exact le_trans hbc hab
        have htotal : ∀ a b : ℝ × SearchResult, le a b || le b a := by
          intro a b
          simp only [hle, Bool.or_eq_true, decide_eq_true_eq]
          exact le_total _ _
        have hperm : ranked.Perm scored := scored.mergeSort_perm le
        have hscored_eq : rerankScored embed query candidates = scored := by
          simp [rerankScored, hE]
        have hout : rerank embed query candidates top_n =
            some ((ranked.take top_n).map (fun p => p.2)) := by
          simp [rerank, hni, hE]
        refine ⟨(ranked.take top_n).map (fun p => p.2), hout, ?_, ?_, ranked, ?_, ?_, ?_, rfl⟩
        · have h2 : List.Sublist ((ranked.take top_n).map (fun p : ℝ × SearchResult => p.2))
              (ranked.map (fun p => p.2)) := (List.take_sublist _ _).map _
          have h4 : (ranked.map (fun p : ℝ × SearchResult => p.2)).Perm
              (scored.map (fun p => p.2)) := hperm.map _
          have h5 : scored.map (fun p : ℝ × SearchResult => p.2) = candidates := by
            rw [hsc, List.map_map]
            have := List.map_fst_zip candidates dvs (by omega)
            simpa using this
          rw [← h5]
          exact h2.subperm.trans h4.subperm
        · simp [hrk, hsc, List.length_take, List.length_mergeSort, List.length_zip, hdvs]
        · rw [hscored_eq]
          exact hperm
        · have hp := List.sorted_mergeSort htrans htotal scored
          rw [← hrk] at hp
          have hp2 : ranked.Pairwise (fun a b : ℝ × SearchResult => b.1 ≤ a.1) :=
            hp.imp (fun h => by
              simp only [hle, decide_eq_true_eq] at h
              exact h)
          exact List.pairwise_map.mpr hp2
        · intro s
          rw [hscored_eq]
          have hpw : (scored.filter (fun p => p.1 = s)).Pairwise
              (fun a b => le a b = true) := by
            apply List.pairwise_of_forall_mem_list
            intro a ha b hb
            have ha2 := List.of_mem_filter ha
            have hb2 := List.of_mem_filter hb
            simp only [decide_eq_true_eq] at ha2 hb2
            simp only [hle, decide_eq_true_eq, ha2, hb2]
            exact le_refl s
          have hsub : List.Sublist (scored.filter (fun p => p.1 = s)) ranked :=
            List.sublist_mergeSort htrans htotal hpw (List.filter_sublist scored)
          have hsub2 : List.Sublist (scored.filter (fun p => p.1 = s))
              (ranked.filter (fun p => p.1 = s)) := by
            have h6 := hsub.filter (fun p => decide (p.1 = s))
            rw [List.filter_filter] at h6
            have h7 : (fun a : ℝ × SearchResult =>
                decide (a.1 = s) && decide (a.1 = s)) = fun a => decide (a.1 = s) :=
              funext fun a => Bool.and_self _
            rw [h7] at h6
            exact h6
          have hpf : (ranked.filter (fun p => p.1 = s)).Perm
              (scored.filter (fun p => p.1 = s)) := hperm.filter _
          exact (hsub2.eq_of_length hpf.length_eq.symm).symm

/-- Witness for C5: a constant one-vector provider, one candidate, and
top_n of one. -/
theorem c5_witness :
    (((fun ts : List Str => ts.map (fun _ => ([1] : List ℚ)))
        ((("q").toList) :: [cand1].map SearchResult.text)).length =
      ((("q").toList) :: [cand1].map SearchResult.text).length) ∧
    ∃ out,
      rerank (fun ts : List Str => ts.map (fun _ => ([1] : List ℚ)))
        (("q").toList) [cand1] 1 = some out ∧
      out.Subperm [cand1] ∧ out.length = min 1 ([cand1].length) :=
  ⟨by simp, by
    obtain ⟨-, out, h1, h2, h3, -⟩ := c5_rerank_sorted_stable_selection
      (fun ts : List Str => ts.map (fun _ => ([1] : List ℚ))) (("q").toList) [cand1] 1 (by simp)
    exact ⟨out, h1, h2, h3⟩⟩
